import Mathlib

/-!
The wallpeek image browser: navigation state machine, resize dimensions and
cache file name.

A shallow embedding of `src/main.go`.

* `model`, `Msg`, `Cmd`, `Update`, `handleKeys` embed the bubbletea model of the
  program (lines 32-113).  Go `int` values are embedded as `Int`: every
  arithmetic step of `Update` and `handleKeys` is guarded (`cur+1` only below
  `len-1`, `cur-1` only above `0`, `idx+1` only below `len-1`), so no
  64-bit overflow can occur on these paths.  A run-time panic (slice index out
  of range) is the result `none`.
* `resize` (lines 210-217) is embedded on the dimensions of the buffer it
  returns, with the `float64` operations rounded as IEEE 754 binary64 does.
* `cacheName` embeds the `fmt.Sprintf` call of `renderImage` (line 188).
-/

namespace Wallpeek

/-! ## Data model -/

/-- The bubbletea model of the program (`type model struct`, lines 51-59). -/
structure model where
  imgs : List String
  cur : Int
  w : Int
  h : Int
  status : String
  ready : Bool
  loading : Bool
  imgPanel : String
deriving DecidableEq, Repr

/-- The messages `Update` dispatches on.  `KeyMsg` carries the result of
`k.String()`; `errMsg` carries the result of `err.Error()`; `other` stands for a
message of any other dynamic type. -/
inductive Msg where
  | WindowSizeMsg (Width Height : Int)
  | imageLoadedMsg (index : Int) (image : String)
  | errMsg (err : String)
  | KeyMsg (key : String)
  | other
deriving DecidableEq, Repr

/-- The commands `Update` can return: `nil`, `tea.Quit`, `tea.ClearScreen`, the
closure built by `loadImageCmd` (identified by the arguments it captures) and
`tea.Batch` of two commands. -/
inductive Cmd where
  | nil
  | Quit
  | ClearScreen
  | loadImageCmd (imgPath : String) (index termW termH : Int)
  | Batch (c1 c2 : Cmd)
deriving DecidableEq, Repr

/-- What one call of `Update` produces: the returned model, the returned
command, and the path handed to `setWallpaper` during the call, if any. -/
structure Step where
  m : model
  cmd : Cmd
  wallpaper : Option String
deriving DecidableEq, Repr

/-- Go slice indexing `xs[i]`: `none` is the index-out-of-range panic. -/
def index (xs : List String) (i : Int) : Option String :=
  if 0 ≤ i ∧ i < xs.length then xs.get? i.toNat else none

/-- The function `filepath.Base` on a Unix path: trailing separators are
stripped, the last element is returned, `"."` for the empty path and `"/"` for a
path of separators only. -/
def Base (path : String) : String :=
  if path = "" then "."
  else
    let r := path.data.reverse.dropWhile (fun c => c = '/')
    let last := (r.takeWhile (fun c => c ≠ '/')).reverse
    if last = [] then "/" else String.mk last

/-- The message the closure of `loadImageCmd` (lines 39-49) delivers once
`renderImage` has returned `res`: an `errMsg` on failure, which does not carry
the request index, and an `imageLoadedMsg` tagged with the index otherwise. -/
def loadImageCmd_result (index : Int) (res : Except String String) : Msg :=
  match res with
  | .error err => .errMsg err
  | .ok out => .imageLoadedMsg index out

/-! ## The update function -/

/-- The statement
`return m, tea.Batch(tea.ClearScreen, loadImageCmd(m.imgs[m.cur], m.cur, m.w, m.h))`
of lines 67, 92, 97 and 106: the argument `m.imgs[m.cur]` is evaluated when the
command is built, so an index out of range panics here. -/
def returnLoad (m : model) : Option Step :=
  match index m.imgs m.cur with
  | none => none
  | some p => some ⟨m, .Batch .ClearScreen (.loadImageCmd p m.cur m.w m.h), none⟩

/-- The function `handleKeys` (lines 85-113).  `d` is the value returned by
`rand.Intn(n - 1)`, consulted on the `r` key only, when `n > 1`. -/
def handleKeys (m : model) (k : String) (d : Int) : Option Step :=
  if k = "q" ∨ k = "esc" ∨ k = "ctrl+c" then
    some ⟨m, .Quit, none⟩
  else if k = "l" ∨ k = "right" then
    if m.cur < (m.imgs.length : Int) - 1 then
      let m1 := { m with cur := m.cur + 1, loading := true, status := "" }
      returnLoad m1
    else some ⟨m, .nil, none⟩
  else if k = "h" ∨ k = "left" then
    if m.cur > 0 then
      let m1 := { m with cur := m.cur - 1, loading := true, status := "" }
      returnLoad m1
    else some ⟨m, .nil, none⟩
  else if k = "r" then
    let n : Int := m.imgs.length
    if n > 1 then
      let idx := d
      let idx := if idx ≥ m.cur then idx + 1 else idx
      let m1 := { m with cur := idx, loading := true, status := "" }
      returnLoad m1
    else some ⟨m, .nil, none⟩
  else if k = "s" ∨ k = "enter" then
    match index m.imgs m.cur with
    | none => none
    | some p => some ⟨{ m with status := "Wallpaper set → " ++ Base p }, .nil, some p⟩
  else some ⟨m, .nil, none⟩

/-- The method `model.Update` (lines 63-83). -/
def Update (m : model) (msg : Msg) (d : Int) : Option Step :=
  match msg with
  | .WindowSizeMsg Width Height =>
    let m1 := { m with w := Width, h := Height, ready := true, loading := true }
    returnLoad m1
  | .imageLoadedMsg idx image =>
    if idx = m.cur then
      some ⟨{ m with loading := false, imgPanel := image }, .nil, none⟩
    else some ⟨m, .nil, none⟩
  | .errMsg err =>
    some ⟨{ m with loading := false, status := err }, .nil, none⟩
  | .KeyMsg k =>
    if m.loading then some ⟨m, .nil, none⟩
    else handleKeys m k d
  | .other => some ⟨m, .nil, none⟩

/-- A three-image session: the sorted scan of the end-to-end example. -/
def m3 : model :=
  { imgs := ["a.jpg", "b.png", "c.jpeg"], cur := 0, w := 80, h := 24,
    status := "", ready := true, loading := false, imgPanel := "" }

/-- A two-image session showing index 1 whose load is still pending. -/
def mPending : model :=
  { imgs := ["a.jpg", "b.png"], cur := 1, w := 80, h := 24,
    status := "", ready := true, loading := true, imgPanel := "" }

/-! ## Resize

The `float64` arithmetic of `resize` is embedded exactly: a finite `float64` is
the rational it denotes, and every conversion, quotient and product is rounded
to the 53-bit significand, to nearest, ties to even.  The exponent is not
bounded: on Go `int` arguments (`|x| < 2^63`) every finite non-zero value that
`resize` computes has its magnitude between `2^-64` and `2^127`, where
`float64` neither overflows nor underflows.  The sign of a zero is not kept: in
`resize` every divisor is `float64` of an `int`, a positive zero, and a zero
reaches nothing else than a product and `int(...)`, which is 0 for both zeros. -/

/-- With enough fuel (`n ≤ fuel`), the number of binary digits of `n`. -/
def bitLen : Nat → Nat → Nat
  | 0, _ => 0
  | fuel + 1, n => if n = 0 then 0 else bitLen fuel (n / 2) + 1

/-- The integer nearest to `x`, the even one of the two when `x` is halfway. -/
def roundEven (x : ℚ) : Int :=
  let f := ⌊x⌋
  if x - f < 1 / 2 then f
  else if 1 / 2 < x - f then f + 1
  else if f % 2 = 0 then f else f + 1

/-- For `a > 0`, the binary exponent of `a`: the `e` with `2^e ≤ a < 2^(e+1)`. -/
def ilog2 (a : ℚ) : Int :=
  let e0 : Int := (bitLen a.num.natAbs a.num.natAbs : Int) - (bitLen a.den a.den : Int)
  if (2 : ℚ) ^ e0 ≤ a then e0 else e0 - 1

/-- Rounding of a positive rational to a 53-bit significand, to nearest, ties
to even: the significand `a / 2^(e-52)` lies in `[2^52, 2^53)` and is rounded to
an integer. -/
def roundPos (a : ℚ) : ℚ :=
  roundEven (a / (2 : ℚ) ^ (ilog2 a - 52)) * (2 : ℚ) ^ (ilog2 a - 52)

/-- Rounding of a rational to `float64`. -/
def fl (q : ℚ) : ℚ :=
  if q = 0 then 0 else if 0 < q then roundPos q else -roundPos (-q)

/-- A `float64` value, up to the sign of zero. -/
inductive F64 where
  | fin (q : ℚ)
  | pinf
  | ninf
  | nan
deriving DecidableEq

/-- The conversion `float64(n)` of an `int`. -/
def F64.ofInt (n : Int) : F64 := .fin (fl n)

/-- The quotient `x / y` of `float64`; a zero divisor is the positive zero. -/
def F64.div : F64 → F64 → F64
  | .fin a, .fin b =>
    if b = 0 then (if a = 0 then .nan else if 0 < a then .pinf else .ninf)
    else .fin (fl (a / b))
  | .fin _, .pinf => .fin 0
  | .fin _, .ninf => .fin 0
  | .pinf, .fin b => if 0 ≤ b then .pinf else .ninf
  | .ninf, .fin b => if 0 ≤ b then .ninf else .pinf
  | _, _ => .nan

/-- The product `x * y` of `float64`. -/
def F64.mul : F64 → F64 → F64
  | .fin a, .fin b => .fin (fl (a * b))
  | .fin a, .pinf => if a = 0 then .nan else if 0 < a then .pinf else .ninf
  | .fin a, .ninf => if a = 0 then .nan else if 0 < a then .ninf else .pinf
  | .pinf, .fin b => if b = 0 then .nan else if 0 < b then .pinf else .ninf
  | .ninf, .fin b => if b = 0 then .nan else if 0 < b then .ninf else .pinf
  | .pinf, .pinf => .pinf
  | .ninf, .ninf => .pinf
  | .pinf, .ninf => .ninf
  | .ninf, .pinf => .ninf
  | _, _ => .nan

/-- The function `math.Min`: `-Inf` if either argument is `-Inf`, else `NaN` if
either is `NaN`, else the smaller one. -/
def F64.Min : F64 → F64 → F64
  | .ninf, _ => .ninf
  | _, .ninf => .ninf
  | .nan, _ => .nan
  | _, .nan => .nan
  | .pinf, y => y
  | x, .pinf => x
  | .fin a, .fin b => .fin (min a b)

/-- Truncation of a rational toward zero. -/
def truncInt (q : ℚ) : Int := Int.tdiv q.num q.den

/-- The conversion `int(f)`: truncation toward zero.  The result `none` stands
for a value that does not fit `int` or is not finite, where the Go specification
leaves the result to the implementation. -/
def F64.toInt : F64 → Option Int
  | .fin q =>
    if -(2 : Int) ^ 63 ≤ truncInt q ∧ truncInt q < (2 : Int) ^ 63 then some (truncInt q)
    else none
  | _ => none

/-- The dimensions `(Dx, Dy)` of `image.NewRGBA(image.Rect(0, 0, nw, nh))`
(line 217): `image.Rect` orders each pair of coordinates, and `NewRGBA` panics
(`none`) when the buffer length `4 * Dx * Dy` overflows `int`. -/
def NewRGBA (nw nh : Int) : Option (Int × Int) :=
  if 4 * |nw| < (2 : Int) ^ 64 ∧ 4 * |nw| * |nh| < (2 : Int) ^ 63 then some (|nw|, |nh|)
  else none

/-- The dimensions of the buffer `dst` that `resize` (lines 210-217) allocates
and returns, for a source image of `w × h` pixels; `none` when the call does not
return a buffer (`NewRGBA` panics, or a conversion `int(...)` is left to the
implementation).  The pixel loop of lines 218-224 fills the buffer and does not
change its dimensions. -/
def resize (w h maxW maxH : Int) : Option (Int × Int) :=
  let wf := F64.ofInt w
  let hf := F64.ofInt h
  let r := F64.Min (F64.div (F64.ofInt maxW) wf) (F64.div (F64.ofInt maxH) hf)
  match F64.toInt (F64.mul wf r), F64.toInt (F64.mul hf r) with
  | some nw, some nh => if nw = 0 ∨ nh = 0 then NewRGBA 1 1 else NewRGBA nw nh
  | _, _ => none

/-- The scale factor of the specification, `r = min(maxW/srcW, maxH/srcH)`, in
exact rational arithmetic. -/
def specScale (w h maxW maxH : Int) : ℚ := min ((maxW : ℚ) / w) ((maxH : ℚ) / h)

/-- The dimensions the specification states: each axis is `floor(src * r)`
clamped to a minimum of 1. -/
def specDims (w h maxW maxH : Int) : Int × Int :=
  (max 1 ⌊(w : ℚ) * specScale w h maxW maxH⌋, max 1 ⌊(h : ℚ) * specScale w h maxW maxH⌋)

/-- The `float64` value of `r` in `resize` when `w` and `h` are not zero. -/
def flScale (w h maxW maxH : Int) : ℚ :=
  min (fl (fl maxW / fl w)) (fl (fl maxH / fl h))

/-- The factor `1 + 2^-52` that one rounding stays within, in both directions. -/
def slack : ℚ := 1 + 1 / 2 ^ 52

/-- Two positive rationals within the factor `slack ^ k` of each other. -/
def Near (k : ℕ) (x' x : ℚ) : Prop :=
  0 < x ∧ 0 < x' ∧ x ≤ x' * slack ^ k ∧ x' ≤ x * slack ^ k

/-! ## Cache file name -/

/-- The integer formatting of `fmt` for the verbs `%d` (base 10) and `%x`
(base 16, lower-case digits): a minus sign for a negative value, then the digits
of the magnitude, most significant first, with a single `0` for zero. -/
def fmtInteger (base : Nat) (v : Int) : List Char :=
  if v < 0 then '-' :: Nat.toDigits base v.natAbs else Nat.toDigits base v.natAbs

/-- The file name `fmt.Sprintf("wp-%x-%dx%d.esq", mtime, w, h)` of
`renderImage` (line 188), where `mtime` is `fi.ModTime().UnixNano()`. -/
def cacheName (mtime w h : Int) : String :=
  "wp-" ++ String.mk (fmtInteger 16 mtime) ++ "-" ++ String.mk (fmtInteger 10 w)
    ++ "x" ++ String.mk (fmtInteger 10 h) ++ ".esq"

/-- The value of a digit character of `Nat.digitChar`, 0 for any other
character. -/
def digitVal (c : Char) : Nat :=
  ((List.range 16).find? (fun d => Nat.digitChar d = c)).getD 0

/-- Reading back a digit string in base `b`, most significant digit first. -/
def readDigits (b : Nat) (l : List Char) : Nat := Nat.ofDigits b (l.map digitVal).reverse

/-! ## Helper lemmas -/

theorem index_isSome (xs : List String) (i : Int) (h0 : 0 ≤ i) (h1 : i < xs.length) :
    ∃ p, index xs i = some p := by
  have hlt : i.toNat < xs.length := by omega
  refine ⟨xs.get ⟨i.toNat, hlt⟩, ?_⟩
  unfold index
  rw [if_pos ⟨h0, h1⟩]
  exact List.get?_eq_get hlt

theorem returnLoad_isSome (m : model) (h0 : 0 ≤ m.cur) (h1 : m.cur < m.imgs.length) :
    ∃ p, index m.imgs m.cur = some p ∧
      returnLoad m = some ⟨m, .Batch .ClearScreen (.loadImageCmd p m.cur m.w m.h), none⟩ := by
  obtain ⟨p, hp⟩ := index_isSome m.imgs m.cur h0 h1
  exact ⟨p, hp, by simp [returnLoad, hp]⟩

theorem Update_key_idle (m : model) (k : String) (d : Int) (hl : m.loading = false) :
    Update m (.KeyMsg k) d = handleKeys m k d := by
  simp [Update, hl]

theorem Update_key_loading (m : model) (k : String) (d : Int) (hl : m.loading = true) :
    Update m (.KeyMsg k) d = some ⟨m, .nil, none⟩ := by
  simp [Update, hl]

theorem handleKeys_quit (m : model) (k : String) (d : Int)
    (hk : k = "q" ∨ k = "esc" ∨ k = "ctrl+c") :
    handleKeys m k d = some ⟨m, .Quit, none⟩ := by
  unfold handleKeys
  rw [if_pos hk]

theorem handleKeys_next (m : model) (k : String) (d : Int) (hk : k = "l" ∨ k = "right") :
    handleKeys m k d =
      if m.cur < (m.imgs.length : Int) - 1 then
        returnLoad { m with cur := m.cur + 1, loading := true, status := "" }
      else some ⟨m, .nil, none⟩ := by
  unfold handleKeys
  rw [if_neg (by rcases hk with h | h <;> subst h <;> decide), if_pos hk]

theorem handleKeys_prev (m : model) (k : String) (d : Int) (hk : k = "h" ∨ k = "left") :
    handleKeys m k d =
      if m.cur > 0 then
        returnLoad { m with cur := m.cur - 1, loading := true, status := "" }
      else some ⟨m, .nil, none⟩ := by
  unfold handleKeys
  rw [if_neg (by rcases hk with h | h <;> subst h <;> decide),
    if_neg (by rcases hk with h | h <;> subst h <;> decide), if_pos hk]

theorem handleKeys_random (m : model) (d : Int) :
    handleKeys m "r" d =
      if (m.imgs.length : Int) > 1 then
        returnLoad { m with cur := (if d ≥ m.cur then d + 1 else d), loading := true,
                            status := "" }
      else some ⟨m, .nil, none⟩ := by
  unfold handleKeys
  rw [if_neg (by decide), if_neg (by decide), if_neg (by decide), if_pos rfl]

theorem handleKeys_set (m : model) (k : String) (d : Int) (hk : k = "s" ∨ k = "enter") :
    handleKeys m k d =
      match index m.imgs m.cur with
      | none => none
      | some p => some ⟨{ m with status := "Wallpaper set → " ++ Base p }, .nil, some p⟩ := by
  unfold handleKeys
  rw [if_neg (by rcases hk with h | h <;> subst h <;> decide),
    if_neg (by rcases hk with h | h <;> subst h <;> decide),
    if_neg (by rcases hk with h | h <;> subst h <;> decide),
    if_neg (by rcases hk with h | h <;> subst h <;> decide), if_pos hk]

theorem handleKeys_unbound (m : model) (k : String) (d : Int)
    (h1 : ¬ (k = "q" ∨ k = "esc" ∨ k = "ctrl+c")) (h2 : ¬ (k = "l" ∨ k = "right"))
    (h3 : ¬ (k = "h" ∨ k = "left")) (h4 : ¬ k = "r") (h5 : ¬ (k = "s" ∨ k = "enter")) :
    handleKeys m k d = some ⟨m, .nil, none⟩ := by
  unfold handleKeys
  rw [if_neg h1, if_neg h2, if_neg h3, if_neg h4, if_neg h5]

/-! ## Stale results and the loading guard -/

/-- C1: a completed load whose index differs from the current index leaves the
model equal to `m` in every field and returns no command. -/
theorem Update_imageLoaded_stale (m : model) (idx : Int) (image : String) (d : Int)
    (h : idx ≠ m.cur) :
    Update m (.imageLoadedMsg idx image) d = some ⟨m, .nil, none⟩ := by
  simp [Update, h]

/-- With the current index 1, a load tagged index 0 that completes with payload
`"payload-0"` is discarded: the displayed payload stays the one of `mPending`. -/
theorem Update_imageLoaded_stale_witness :
    Update mPending (loadImageCmd_result 0 (.ok "payload-0")) 0
      = some ⟨mPending, .nil, none⟩ :=
  Update_imageLoaded_stale mPending 0 "payload-0" 0 (by decide)

/-- C3: while `loading` is set, the next, prev and random keys return the model
unchanged and no command (the guard of lines 77-79 does not look at the key). -/
theorem Update_nav_while_loading (m : model) (k : String) (d : Int)
    (hl : m.loading = true) (_hk : k ∈ ["l", "right", "h", "left", "r"]) :
    Update m (.KeyMsg k) d = some ⟨m, .nil, none⟩ := by
  simp [Update, hl]

/-- While the two-image session is loading, the `r` key changes nothing. -/
theorem Update_nav_while_loading_witness :
    Update mPending (.KeyMsg "r") 0 = some ⟨mPending, .nil, none⟩ :=
  Update_nav_while_loading mPending "r" 0 rfl (by decide)

/-! ## Index invariant -/

/-- C2: from a model with a non-empty image list and `0 ≤ cur < len(imgs)`,
`Update` returns (it does not panic) on every message, with the draw of the `r`
key in `[0, n-1)`, and the returned model has `0 ≤ cur < len(imgs)` and the same
image list. -/
theorem Update_index_invariant (m : model) (msg : Msg) (d : Int)
    (hne : m.imgs ≠ []) (h0 : 0 ≤ m.cur) (h1 : m.cur < m.imgs.length)
    (hd : 1 < m.imgs.length → 0 ≤ d ∧ d < (m.imgs.length : Int) - 1) :
    ∃ s, Update m msg d = some s ∧ 0 ≤ s.m.cur ∧ s.m.cur < s.m.imgs.length
      ∧ s.m.imgs = m.imgs := by
  have hpos : 0 < m.imgs.length := List.length_pos.mpr hne
  cases msg with
  | WindowSizeMsg W H =>
    obtain ⟨p, -, hp⟩ := returnLoad_isSome
      { m with w := W, h := H, ready := true, loading := true } h0 h1
    exact ⟨_, hp, h0, h1, rfl⟩
  | imageLoadedMsg idx image =>
    by_cases h : idx = m.cur <;> simp [Update, h, h0, h1]
  | errMsg err => simp [Update, h0, h1]
  | other => simp [Update, h0, h1]
  | KeyMsg k =>
    cases hl : m.loading with
    | true => exact ⟨_, Update_key_loading m k d hl, h0, h1, rfl⟩
    | false =>
      rw [Update_key_idle m k d hl]
      by_cases hq : k = "q" ∨ k = "esc" ∨ k = "ctrl+c"
      · exact ⟨_, handleKeys_quit m k d hq, h0, h1, rfl⟩
      by_cases hn : k = "l" ∨ k = "right"
      · rw [handleKeys_next m k d hn]
        split_ifs with hlt
        · obtain ⟨p, -, hp⟩ := returnLoad_isSome
            { m with cur := m.cur + 1, loading := true, status := "" }
            (show 0 ≤ m.cur + 1 by omega) (show m.cur + 1 < m.imgs.length by omega)
          exact ⟨_, hp, show 0 ≤ m.cur + 1 by omega,
            show m.cur + 1 < m.imgs.length by omega, rfl⟩
        · exact ⟨_, rfl, h0, h1, rfl⟩
      by_cases hp : k = "h" ∨ k = "left"
      · rw [handleKeys_prev m k d hp]
        split_ifs with hgt
        · obtain ⟨p, -, hp⟩ := returnLoad_isSome
            { m with cur := m.cur - 1, loading := true, status := "" }
            (show 0 ≤ m.cur - 1 by omega) (show m.cur - 1 < m.imgs.length by omega)
          exact ⟨_, hp, show 0 ≤ m.cur - 1 by omega,
            show m.cur - 1 < m.imgs.length by omega, rfl⟩
        · exact ⟨_, rfl, h0, h1, rfl⟩
      by_cases hr : k = "r"
      · subst hr
        rw [handleKeys_random m d]
        by_cases hn1 : (m.imgs.length : Int) > 1
        · rw [if_pos hn1]
          have hd2 := hd (by exact_mod_cast hn1)
          have hlo : 0 ≤ (if d ≥ m.cur then d + 1 else d) := by split_ifs <;> omega
          have hhi : (if d ≥ m.cur then d + 1 else d) < m.imgs.length := by
            split_ifs <;> omega
          obtain ⟨p, -, hp⟩ := returnLoad_isSome
            { m with cur := (if d ≥ m.cur then d + 1 else d), loading := true, status := "" }
            hlo hhi
          exact ⟨_, hp, hlo, hhi, rfl⟩
        · rw [if_neg hn1]
          exact ⟨_, rfl, h0, h1, rfl⟩
      by_cases hs : k = "s" ∨ k = "enter"
      · rw [handleKeys_set m k d hs]
        obtain ⟨p, hp⟩ := index_isSome m.imgs m.cur h0 h1
        rw [hp]
        exact ⟨_, rfl, h0, h1, rfl⟩
      · rw [handleKeys_unbound m k d hq hn hp hr hs]
        exact ⟨_, rfl, h0, h1, rfl⟩

/-- The invariant is kept by the `r` key in the three-image session, for the
draw 1 of `[0, 2)`. -/
theorem Update_index_invariant_witness :
    ∃ s, Update m3 (.KeyMsg "r") 1 = some s ∧ 0 ≤ s.m.cur ∧ s.m.cur < s.m.imgs.length
      ∧ s.m.imgs = m3.imgs :=
  Update_index_invariant m3 (.KeyMsg "r") 1 (by decide) (by decide) (by decide)
    (fun _ => by decide)

/-! ## Next, prev and random -/

/-- C5: in a model that is not loading, with `n ≥ 1` images and `0 ≤ cur < n`, the
next key (`l`, `right`) gives `cur' = min(cur+1, n-1)` and the prev key (`h`,
`left`) gives `cur' = max(cur-1, 0)`; the new index is in range, and at the
boundary the whole model is returned unchanged with no command. -/
theorem Update_next_prev_clamp (m : model) (d : Int) (hl : m.loading = false)
    (_hn : 1 ≤ m.imgs.length) (h0 : 0 ≤ m.cur) (h1 : m.cur < m.imgs.length) :
    (∀ k, k = "l" ∨ k = "right" →
      ∃ s, Update m (.KeyMsg k) d = some s
        ∧ s.m.cur = min (m.cur + 1) ((m.imgs.length : Int) - 1)
        ∧ 0 ≤ s.m.cur ∧ s.m.cur < s.m.imgs.length
        ∧ (m.cur = (m.imgs.length : Int) - 1 → s = ⟨m, .nil, none⟩)) ∧
    (∀ k, k = "h" ∨ k = "left" →
      ∃ s, Update m (.KeyMsg k) d = some s
        ∧ s.m.cur = max (m.cur - 1) 0
        ∧ 0 ≤ s.m.cur ∧ s.m.cur < s.m.imgs.length
        ∧ (m.cur = 0 → s = ⟨m, .nil, none⟩)) := by
  constructor
  · intro k hk
    rw [Update_key_idle m k d hl, handleKeys_next m k d hk]
    by_cases hlt : m.cur < (m.imgs.length : Int) - 1
    · rw [if_pos hlt]
      obtain ⟨p, -, hp⟩ := returnLoad_isSome
        { m with cur := m.cur + 1, loading := true, status := "" }
        (show 0 ≤ m.cur + 1 by omega) (show m.cur + 1 < m.imgs.length by omega)
      refine ⟨_, hp, ?_, show 0 ≤ m.cur + 1 by omega,
        show m.cur + 1 < m.imgs.length by omega, fun h => absurd h (by omega)⟩
      show m.cur + 1 = min (m.cur + 1) ((m.imgs.length : Int) - 1)
      omega
    · rw [if_neg hlt]
      exact ⟨_, rfl, by show m.cur = min (m.cur + 1) ((m.imgs.length : Int) - 1); omega,
        h0, h1, fun _ => rfl⟩
  · intro k hk
    rw [Update_key_idle m k d hl, handleKeys_prev m k d hk]
    by_cases hgt : m.cur > 0
    · rw [if_pos hgt]
      obtain ⟨p, -, hp⟩ := returnLoad_isSome
        { m with cur := m.cur - 1, loading := true, status := "" }
        (show 0 ≤ m.cur - 1 by omega) (show m.cur - 1 < m.imgs.length by omega)
      refine ⟨_, hp, ?_, show 0 ≤ m.cur - 1 by omega,
        show m.cur - 1 < m.imgs.length by omega, fun h => absurd h (by omega)⟩
      show m.cur - 1 = max (m.cur - 1) 0
      omega
    · rw [if_neg hgt]
      exact ⟨_, rfl, by show m.cur = max (m.cur - 1) 0; omega, h0, h1, fun _ => rfl⟩

/-- With the three-image list and `cur = 0`, next gives index 1 and prev gives
index 0. -/
theorem Update_next_prev_clamp_witness :
    (∃ s, Update m3 (.KeyMsg "l") 0 = some s ∧ s.m.cur = 1) ∧
    (∃ s, Update m3 (.KeyMsg "h") 0 = some s ∧ s.m.cur = 0) := by
  have h := Update_next_prev_clamp m3 0 rfl (by decide) (by decide) (by decide)
  obtain ⟨s, hs, hc, -⟩ := h.1 "l" (Or.inl rfl)
  obtain ⟨t, ht, hc2, -⟩ := h.2 "h" (Or.inl rfl)
  exact ⟨⟨s, hs, hc.trans (by decide)⟩, ⟨t, ht, hc2.trans (by decide)⟩⟩

/-- C4: the `r` key.  With `n ≥ 2` images, `0 ≤ cur < n` and the model not
loading, the draw `d` of `[0, n-1)` gives the new index `d` if `d < cur` and
`d+1` otherwise, which is in range and is not `cur`; every index of `[0, n)`
other than `cur` is the new index of exactly one draw of `[0, n-1)`.  With one
image the `r` key returns the model unchanged and no command. -/
theorem Update_random_bijection :
    (∀ (m : model) (d : Int), m.loading = false → 2 ≤ m.imgs.length →
      0 ≤ m.cur → m.cur < m.imgs.length → 0 ≤ d → d < (m.imgs.length : Int) - 1 →
      ∃ s, Update m (.KeyMsg "r") d = some s
        ∧ s.m.cur = (if d < m.cur then d else d + 1)
        ∧ 0 ≤ s.m.cur ∧ s.m.cur < m.imgs.length ∧ s.m.cur ≠ m.cur) ∧
    (∀ (m : model) (j : Int), m.loading = false → 2 ≤ m.imgs.length →
      0 ≤ m.cur → m.cur < m.imgs.length → 0 ≤ j → j < m.imgs.length → j ≠ m.cur →
      ∃! d, 0 ≤ d ∧ d < (m.imgs.length : Int) - 1
        ∧ ∃ s, Update m (.KeyMsg "r") d = some s ∧ s.m.cur = j) ∧
    (∀ (m : model) (d : Int), m.imgs.length = 1 →
      Update m (.KeyMsg "r") d = some ⟨m, .nil, none⟩) := by
  have key : ∀ (m : model) (d : Int), m.loading = false → 2 ≤ m.imgs.length →
      0 ≤ m.cur → m.cur < m.imgs.length → 0 ≤ d → d < (m.imgs.length : Int) - 1 →
      ∃ s, Update m (.KeyMsg "r") d = some s
        ∧ s.m.cur = (if d < m.cur then d else d + 1) := by
    intro m d hl hn h0 h1 hd0 hd1
    rw [Update_key_idle m "r" d hl, handleKeys_random m d,
      if_pos (show (m.imgs.length : Int) > 1 by omega)]
    have hlo : 0 ≤ (if d ≥ m.cur then d + 1 else d) := by split_ifs <;> omega
    have hhi : (if d ≥ m.cur then d + 1 else d) < m.imgs.length := by split_ifs <;> omega
    obtain ⟨p, -, hp⟩ := returnLoad_isSome
      { m with cur := (if d ≥ m.cur then d + 1 else d), loading := true, status := "" }
      hlo hhi
    refine ⟨_, hp, ?_⟩
    show (if d ≥ m.cur then d + 1 else d) = (if d < m.cur then d else d + 1)
    split_ifs <;> omega
  refine ⟨?_, ?_, ?_⟩
  · intro m d hl hn h0 h1 hd0 hd1
    obtain ⟨s, hs, hc⟩ := key m d hl hn h0 h1 hd0 hd1
    refine ⟨s, hs, hc, ?_, ?_, ?_⟩ <;> rw [hc] <;> split_ifs <;> omega
  · intro m j hl hn h0 h1 hj0 hj1 hne
    refine ⟨if j < m.cur then j else j - 1, ⟨?_, ?_, ?_⟩, ?_⟩
    · split_ifs <;> omega
    · split_ifs <;> omega
    · obtain ⟨s, hs, hc⟩ := key m (if j < m.cur then j else j - 1) hl hn h0 h1
        (by split_ifs <;> omega) (by split_ifs <;> omega)
      refine ⟨s, hs, ?_⟩
      rw [hc]
      split_ifs <;> omega
    · rintro d ⟨hd0, hd1, s, hs, hsj⟩
      obtain ⟨t, ht, hc⟩ := key m d hl hn h0 h1 hd0 hd1
      rw [hs] at ht
      cases ht
      rw [hc] at hsj
      split_ifs at hsj ⊢ <;> omega
  · intro m d hlen
    cases hl : m.loading with
    | true => exact Update_key_loading m "r" d hl
    | false =>
      rw [Update_key_idle m "r" d hl, handleKeys_random m d,
        if_neg (show ¬ (m.imgs.length : Int) > 1 by omega)]

/-- In the three-image session (`cur = 0`) the draw 1 selects index 2, and the
one-image session is left unchanged by the `r` key. -/
theorem Update_random_bijection_witness :
    (∃ s, Update m3 (.KeyMsg "r") 1 = some s ∧ s.m.cur = 2) ∧
    Update { m3 with imgs := ["a.jpg"] } (.KeyMsg "r") 0
      = some ⟨{ m3 with imgs := ["a.jpg"] }, .nil, none⟩ := by
  obtain ⟨s, hs, hc, -⟩ := Update_random_bijection.1 m3 1 rfl (by decide) (by decide)
    (by decide) (by decide) (by decide)
  exact ⟨⟨s, hs, hc.trans (by decide)⟩,
    Update_random_bijection.2.2 { m3 with imgs := ["a.jpg"] } 0 rfl⟩

/-! ## Quit and failed loads -/

/-- C9 fails as stated: while the two-image session is loading, the `q` key
returns the model with no command, not the quit command. -/
theorem Update_quit_while_loading_counterexample :
    mPending.loading = true ∧
      ∃ s, Update mPending (.KeyMsg "q") 0 = some s ∧ s.cmd = .nil ∧ s.cmd ≠ .Quit :=
  ⟨rfl, ⟨mPending, .nil, none⟩, by decide, rfl, by decide⟩

/-- C9 amended: in a model that is not loading, the keys `q`, `esc` and `ctrl+c`
make `Update` return the quit command, with the model unchanged. -/
theorem Update_quit_when_idle (m : model) (k : String) (d : Int)
    (hl : m.loading = false) (hk : k = "q" ∨ k = "esc" ∨ k = "ctrl+c") :
    Update m (.KeyMsg k) d = some ⟨m, .Quit, none⟩ := by
  rw [Update_key_idle m k d hl, handleKeys_quit m k d hk]

/-- In the idle three-image session the `esc` key returns the quit command. -/
theorem Update_quit_when_idle_witness :
    Update m3 (.KeyMsg "esc") 0 = some ⟨m3, .Quit, none⟩ :=
  Update_quit_when_idle m3 "esc" 0 rfl (Or.inr (Or.inl rfl))

/-- C8 on the code: a failed load is delivered as an `errMsg` without its
request index, and `Update` adopts it whatever the current index is.  Here the
load of index 0 fails while index 1 is current and pending: `loading` is cleared
and the status is replaced. -/
theorem Update_stale_errMsg_adopted :
    Update mPending (loadImageCmd_result 0 (.error "stat a.jpg: no such file or directory")) 0
      = some ⟨{ mPending with loading := false,
                              status := "stat a.jpg: no such file or directory" },
          .nil, none⟩
    ∧ (0 : Int) ≠ mPending.cur
    ∧ ({ mPending with loading := false,
                       status := "stat a.jpg: no such file or directory" } : model)
        ≠ mPending := by
  refine ⟨rfl, by decide, by decide⟩

/-! ## Resize: rounding lemmas -/

theorem bitLen_spec : ∀ (fuel n : Nat), 0 < n → n ≤ fuel →
    2 ^ bitLen fuel n ≤ 2 * n ∧ n < 2 ^ bitLen fuel n := by
  intro fuel
  induction fuel with
  | zero => intro n h1 h2; omega
  | succ fuel ih =>
    intro n hpos hle
    unfold bitLen
    rw [if_neg (by omega)]
    by_cases h2 : n / 2 = 0
    · have hn : n = 1 := by omega
      subst hn
      cases fuel with
      | zero => simp [bitLen]
      | succ f => simp [bitLen]
    · obtain ⟨a, b⟩ := ih (n / 2) (by omega) (by omega)
      rw [pow_succ]
      constructor <;> omega

theorem ilog2_le (a : ℚ) (ha : 0 < a) : (2 : ℚ) ^ ilog2 a ≤ a := by
  unfold ilog2
  simp only
  split_ifs with h
  · exact h
  · have hnum : 0 < a.num := Rat.num_pos.mpr ha
    have hp : 0 < a.num.natAbs := Int.natAbs_pos.mpr hnum.ne'
    have hd : 0 < a.den := a.den_pos
    obtain ⟨p1, -⟩ := bitLen_spec a.num.natAbs a.num.natAbs hp le_rfl
    obtain ⟨-, d2⟩ := bitLen_spec a.den a.den hd le_rfl
    have p1q : (2 : ℚ) ^ bitLen a.num.natAbs a.num.natAbs ≤ 2 * (a.num.natAbs : ℚ) := by
      exact_mod_cast p1
    have d2q : (a.den : ℚ) ≤ 2 ^ bitLen a.den a.den := by exact_mod_cast d2.le
    have hdq : (0 : ℚ) < a.den := by exact_mod_cast hd
    have hcast : (a.num.natAbs : ℚ) = a.num := by
      rw [Nat.cast_natAbs, abs_of_pos hnum]
    have haeq : a = (a.num.natAbs : ℚ) / a.den := by
      rw [hcast]; exact (Rat.num_div_den a).symm
    have two : (2 : ℚ) ≠ 0 := by norm_num
    rw [zpow_sub₀ two, zpow_sub₀ two, zpow_natCast, zpow_natCast, zpow_one]
    have hB : (0 : ℚ) < 2 ^ bitLen a.den a.den := by positivity
    rw [div_div, div_le_iff₀ (by positivity)]
    calc (2 : ℚ) ^ bitLen a.num.natAbs a.num.natAbs
        ≤ 2 * (a.num.natAbs : ℚ) := p1q
      _ = ((a.num.natAbs : ℚ) / a.den) * (a.den * 2) := by field_simp; ring
      _ ≤ ((a.num.natAbs : ℚ) / a.den) * (2 ^ bitLen a.den a.den * 2) := by
          apply mul_le_mul_of_nonneg_left _ (by positivity)
          linarith
      _ = a * (2 ^ bitLen a.den a.den * 2) := by rw [← haeq]

theorem ilog2_lt (a : ℚ) (ha : 0 < a) : a < (2 : ℚ) ^ (ilog2 a + 1) := by
  unfold ilog2
  simp only
  have two : (2 : ℚ) ≠ 0 := by norm_num
  split_ifs with h
  · have hnum : 0 < a.num := Rat.num_pos.mpr ha
    have hp : 0 < a.num.natAbs := Int.natAbs_pos.mpr hnum.ne'
    have hd : 0 < a.den := a.den_pos
    obtain ⟨-, p2⟩ := bitLen_spec a.num.natAbs a.num.natAbs hp le_rfl
    obtain ⟨d1, -⟩ := bitLen_spec a.den a.den hd le_rfl
    have p2q : (a.num.natAbs : ℚ) < 2 ^ bitLen a.num.natAbs a.num.natAbs := by
      exact_mod_cast p2
    have d1q : (2 : ℚ) ^ bitLen a.den a.den ≤ 2 * (a.den : ℚ) := by exact_mod_cast d1
    have hdq : (0 : ℚ) < a.den := by exact_mod_cast hd
    have hcast : (a.num.natAbs : ℚ) = a.num := by
      rw [Nat.cast_natAbs, abs_of_pos hnum]
    have haeq : a = (a.num.natAbs : ℚ) / a.den := by
      rw [hcast]; exact (Rat.num_div_den a).symm
    rw [zpow_add₀ two, zpow_sub₀ two, zpow_natCast, zpow_natCast, zpow_one]
    have hB : (0 : ℚ) < 2 ^ bitLen a.den a.den := by positivity
    rw [div_mul_eq_mul_div, lt_div_iff₀ hB]
    calc a * 2 ^ bitLen a.den a.den ≤ a * (2 * (a.den : ℚ)) :=
          mul_le_mul_of_nonneg_left d1q ha.le
      _ = (a.num.natAbs : ℚ) * 2 := by rw [hcast, ← Rat.mul_den_eq_num a]; ring
      _ < 2 ^ bitLen a.num.natAbs a.num.natAbs * 2 :=
          mul_lt_mul_of_pos_right p2q (by norm_num)
  · rw [sub_add_cancel]
    exact lt_of_not_le h

theorem roundEven_near (x : ℚ) : |((roundEven x : ℤ) : ℚ) - x| ≤ 1 / 2 := by
  have h1 := Int.floor_le x
  have h2 := Int.lt_floor_add_one x
  unfold roundEven
  simp only
  rw [abs_le]
  split_ifs with a b c
  · constructor <;> linarith
  · push_cast; constructor <;> linarith
  · constructor <;> linarith
  · push_cast; constructor <;> linarith

theorem roundPos_near (a : ℚ) (ha : 0 < a) :
    |roundPos a - a| ≤ a * (1 / 2 ^ 53) := by
  have hU : (0 : ℚ) < 2 ^ (ilog2 a - 52) := by positivity
  have hr := roundEven_near (a / 2 ^ (ilog2 a - 52))
  have hle := ilog2_le a ha
  have two : (2 : ℚ) ≠ 0 := by norm_num
  have hUe : (2 : ℚ) ^ (ilog2 a - 52) = 2 ^ ilog2 a / 2 ^ 52 := by
    rw [zpow_sub₀ two]; norm_num
  unfold roundPos
  have key : |(roundEven (a / 2 ^ (ilog2 a - 52)) : ℚ) * 2 ^ (ilog2 a - 52) - a|
      = |(roundEven (a / 2 ^ (ilog2 a - 52)) : ℚ) - a / 2 ^ (ilog2 a - 52)|
        * 2 ^ (ilog2 a - 52) := by
    rw [← abs_of_pos hU, ← abs_mul, abs_of_pos hU, sub_mul, div_mul_cancel₀ _ hU.ne']
  rw [key]
  calc |(roundEven (a / 2 ^ (ilog2 a - 52)) : ℚ) - a / 2 ^ (ilog2 a - 52)|
        * 2 ^ (ilog2 a - 52)
      ≤ 1 / 2 * 2 ^ (ilog2 a - 52) := mul_le_mul_of_nonneg_right hr hU.le
    _ = 2 ^ ilog2 a * (1 / 2 ^ 53) := by rw [hUe]; ring
    _ ≤ a * (1 / 2 ^ 53) := mul_le_mul_of_nonneg_right hle (by positivity)

theorem fl_pos_eq (a : ℚ) (ha : 0 < a) : fl a = roundPos a := by
  unfold fl
  rw [if_neg ha.ne', if_pos ha]

theorem slack_pos : 0 < slack := by unfold slack; positivity

theorem slack_pow_pos (k : ℕ) : 0 < slack ^ k := pow_pos slack_pos k

theorem one_le_slack_pow (k : ℕ) : 1 ≤ slack ^ k :=
  one_le_pow₀ (by unfold slack; norm_num)

theorem fl_near (a : ℚ) (ha : 0 < a) : Near 1 (fl a) a := by
  have h := roundPos_near a ha
  rw [← fl_pos_eq a ha, abs_le] at h
  obtain ⟨h1, h2⟩ := h
  have hlow : a * (1 - 1 / 2 ^ 53) ≤ fl a := by linarith
  have hpos : 0 < fl a := lt_of_lt_of_le (mul_pos ha (by norm_num)) hlow
  refine ⟨ha, hpos, ?_, ?_⟩
  · rw [pow_one]
    unfold slack
    have e : a * 1 ≤ a * ((1 - 1 / 2 ^ 53) * (1 + 1 / 2 ^ 52)) :=
      mul_le_mul_of_nonneg_left (by norm_num) ha.le
    calc a = a * 1 := (mul_one a).symm
      _ ≤ a * ((1 - 1 / 2 ^ 53) * (1 + 1 / 2 ^ 52)) := e
      _ = a * (1 - 1 / 2 ^ 53) * (1 + 1 / 2 ^ 52) := by ring
      _ ≤ fl a * (1 + 1 / 2 ^ 52) := mul_le_mul_of_nonneg_right hlow (by norm_num)
  · rw [pow_one]
    unfold slack
    have : a * (1 / 2 ^ 53) ≤ a * (1 / 2 ^ 52) :=
      mul_le_mul_of_nonneg_left (by norm_num) ha.le
    linarith

theorem Near.trans {i j k : ℕ} {x y z : ℚ} (h1 : Near i y x) (h2 : Near j z y)
    (hk : k = i + j) : Near k z x := by
  subst hk
  obtain ⟨hx, hy, a1, a2⟩ := h1
  obtain ⟨-, hz, b1, b2⟩ := h2
  refine ⟨hx, hz, ?_, ?_⟩
  · calc x ≤ y * slack ^ i := a1
      _ ≤ z * slack ^ j * slack ^ i :=
          mul_le_mul_of_nonneg_right b1 (slack_pow_pos i).le
      _ = z * slack ^ (i + j) := by rw [pow_add]; ring
  · calc z ≤ y * slack ^ j := b2
      _ ≤ x * slack ^ i * slack ^ j :=
          mul_le_mul_of_nonneg_right a2 (slack_pow_pos j).le
      _ = x * slack ^ (i + j) := by rw [pow_add]; ring

theorem Near.mul {i j k : ℕ} {a' a b' b : ℚ} (h1 : Near i a' a) (h2 : Near j b' b)
    (hk : k = i + j) : Near k (a' * b') (a * b) := by
  subst hk
  obtain ⟨ha, ha', a1, a2⟩ := h1
  obtain ⟨hb, hb', b1, b2⟩ := h2
  refine ⟨mul_pos ha hb, mul_pos ha' hb', ?_, ?_⟩
  · calc a * b ≤ a' * slack ^ i * (b' * slack ^ j) :=
          mul_le_mul a1 b1 hb.le (mul_pos ha' (slack_pow_pos i)).le
      _ = a' * b' * slack ^ (i + j) := by rw [pow_add]; ring
  · calc a' * b' ≤ a * slack ^ i * (b * slack ^ j) :=
          mul_le_mul a2 b2 hb'.le (mul_pos ha (slack_pow_pos i)).le
      _ = a * b * slack ^ (i + j) := by rw [pow_add]; ring

theorem Near.div {i j k : ℕ} {a' a b' b : ℚ} (h1 : Near i a' a) (h2 : Near j b' b)
    (hk : k = i + j) : Near k (a' / b') (a / b) := by
  subst hk
  obtain ⟨ha, ha', a1, a2⟩ := h1
  obtain ⟨hb, hb', b1, b2⟩ := h2
  refine ⟨div_pos ha hb, div_pos ha' hb', ?_, ?_⟩
  · rw [div_le_iff₀ hb]
    calc a ≤ a' * slack ^ i := a1
      _ = a' / b' * slack ^ i * b' := by field_simp
      _ ≤ a' / b' * slack ^ i * (b * slack ^ j) :=
          mul_le_mul_of_nonneg_left b2
            (mul_pos (div_pos ha' hb') (slack_pow_pos i)).le
      _ = a' / b' * slack ^ (i + j) * b := by rw [pow_add]; ring
  · rw [div_le_iff₀ hb']
    calc a' ≤ a * slack ^ i := a2
      _ = a / b * slack ^ i * b := by field_simp
      _ ≤ a / b * slack ^ i * (b' * slack ^ j) :=
          mul_le_mul_of_nonneg_left b1
            (mul_pos (div_pos ha hb) (slack_pow_pos i)).le
      _ = a / b * slack ^ (i + j) * b' := by rw [pow_add]; ring

theorem Near.min {k : ℕ} {a' a b' b : ℚ} (h1 : Near k a' a) (h2 : Near k b' b) :
    Near k (min a' b') (min a b) := by
  obtain ⟨ha, ha', a1, a2⟩ := h1
  obtain ⟨hb, hb', b1, b2⟩ := h2
  refine ⟨lt_min ha hb, lt_min ha' hb', ?_, ?_⟩
  · rcases le_total a' b' with h | h
    · rw [min_eq_left h]; exact (min_le_left _ _).trans a1
    · rw [min_eq_right h]; exact (min_le_right _ _).trans b1
  · rcases le_total a b with h | h
    · rw [min_eq_left h]; exact (min_le_left _ _).trans a2
    · rw [min_eq_right h]; exact (min_le_right _ _).trans b2

/-- The rounded product `fl (fl s * r)` of `resize` is within `slack ^ 5` of the
exact product `s * specScale`, for `s` one of `w`, `h`. -/
theorem prod_near (w h maxW maxH : Int) (hw : 1 ≤ w) (hh : 1 ≤ h)
    (hW : 1 ≤ maxW) (hH : 1 ≤ maxH) :
    Near 5 (fl (fl w * flScale w h maxW maxH)) ((w : ℚ) * specScale w h maxW maxH)
    ∧ Near 5 (fl (fl h * flScale w h maxW maxH)) ((h : ℚ) * specScale w h maxW maxH) := by
  have hw' : (0 : ℚ) < w := by exact_mod_cast (by omega : 0 < w)
  have hh' : (0 : ℚ) < h := by exact_mod_cast (by omega : 0 < h)
  have hW' : (0 : ℚ) < maxW := by exact_mod_cast (by omega : 0 < maxW)
  have hH' : (0 : ℚ) < maxH := by exact_mod_cast (by omega : 0 < maxH)
  have nw : Near 1 (fl w) w := fl_near _ hw'
  have nh : Near 1 (fl h) h := fl_near _ hh'
  have nW : Near 1 (fl maxW) maxW := fl_near _ hW'
  have nH : Near 1 (fl maxH) maxH := fl_near _ hH'
  have qa : Near 2 (fl maxW / fl w) ((maxW : ℚ) / w) := Near.div nW nw rfl
  have qb : Near 2 (fl maxH / fl h) ((maxH : ℚ) / h) := Near.div nH nh rfl
  have fa : Near 3 (fl (fl maxW / fl w)) ((maxW : ℚ) / w) := qa.trans (fl_near _ qa.2.1) rfl
  have fb : Near 3 (fl (fl maxH / fl h)) ((maxH : ℚ) / h) := qb.trans (fl_near _ qb.2.1) rfl
  have nr : Near 3 (min (fl (fl maxW / fl w)) (fl (fl maxH / fl h)))
      (min ((maxW : ℚ) / w) ((maxH : ℚ) / h)) := Near.min fa fb
  have pw : Near 4 (fl w * min (fl (fl maxW / fl w)) (fl (fl maxH / fl h)))
      ((w : ℚ) * min ((maxW : ℚ) / w) ((maxH : ℚ) / h)) := Near.mul nw nr rfl
  have ph : Near 4 (fl h * min (fl (fl maxW / fl w)) (fl (fl maxH / fl h)))
      ((h : ℚ) * min ((maxW : ℚ) / w) ((maxH : ℚ) / h)) := Near.mul nh nr rfl
  unfold flScale specScale
  exact ⟨pw.trans (fl_near _ pw.2.1) rfl, ph.trans (fl_near _ ph.2.1) rfl⟩

theorem near5_close (p x : ℚ) (M : Int) (h : Near 5 p x) (hx : x ≤ M)
    (hM : M < 2 ^ 49) : p < x + 1 ∧ x < p + 1 := by
  obtain ⟨hx0, hp0, a1, a2⟩ := h
  have hs : slack ^ 5 ≤ 1 + 1 / 2 ^ 49 := by unfold slack; norm_num
  have hMq : (M : ℚ) < 2 ^ 49 := by exact_mod_cast hM
  have hxs : x * (1 / 2 ^ 49) < 1 := by
    have : x * (1 / 2 ^ 49) < 2 ^ 49 * (1 / 2 ^ 49) :=
      mul_lt_mul_of_pos_right (lt_of_le_of_lt hx hMq) (by norm_num)
    simpa using this
  have b2 : p ≤ x * (1 + 1 / 2 ^ 49) := a2.trans (mul_le_mul_of_nonneg_left hs hx0.le)
  have b1 : x ≤ p * (1 + 1 / 2 ^ 49) := a1.trans (mul_le_mul_of_nonneg_left hs hp0.le)
  constructor
  · linarith
  · have c : x * (1 - 1 / 2 ^ 49) ≤ p * ((1 + 1 / 2 ^ 49) * (1 - 1 / 2 ^ 49)) := by
      have := mul_le_mul_of_nonneg_right b1 (by norm_num : (0 : ℚ) ≤ 1 - 1 / 2 ^ 49)
      linarith
    have d : p * ((1 + 1 / 2 ^ 49) * (1 - 1 / 2 ^ 49)) ≤ p * 1 :=
      mul_le_mul_of_nonneg_left (by norm_num) hp0.le
    linarith

theorem truncInt_eq_floor (q : ℚ) (hq : 0 ≤ q) : truncInt q = ⌊q⌋ := by
  unfold truncInt
  rw [Rat.floor_def, Int.tdiv_eq_ediv (Rat.num_nonneg.mpr hq) (Int.natCast_nonneg _)]

theorem toInt_fin (q : ℚ) (hq : 0 ≤ q) (hlt : ⌊q⌋ < 2 ^ 63) :
    F64.toInt (.fin q) = some ⌊q⌋ := by
  have h0 : 0 ≤ ⌊q⌋ := Int.floor_nonneg.mpr hq
  simp only [F64.toInt, truncInt_eq_floor q hq]
  rw [if_pos ⟨by omega, hlt⟩]

theorem NewRGBA_pos (nw nh : Int) (hw : 0 ≤ nw) (hh : 1 ≤ nh)
    (hlen : 4 * nw * nh < 2 ^ 63) : NewRGBA nw nh = some (nw, nh) := by
  have h4 : 4 * nw < 2 ^ 64 := by nlinarith
  unfold NewRGBA
  rw [abs_of_nonneg hw, abs_of_nonneg (by omega : (0 : Int) ≤ nh), if_pos ⟨h4, hlen⟩]

theorem resize_unfold (w h maxW maxH : Int) (hw : fl w ≠ 0) (hh : fl h ≠ 0) :
    resize w h maxW maxH =
      match F64.toInt (.fin (fl (fl w * flScale w h maxW maxH))),
          F64.toInt (.fin (fl (fl h * flScale w h maxW maxH))) with
      | some nw, some nh => if nw = 0 ∨ nh = 0 then NewRGBA 1 1 else NewRGBA nw nh
      | _, _ => none := by
  simp only [resize, F64.ofInt, F64.div, F64.Min, F64.mul, flScale, hw, hh, if_false]

/-- What `resize` returns on positive inputs with boxes below `2^49` whose
buffer `image.NewRGBA` accepts: the floors `tw`, `th` of the two rounded
products, each within the box and within 1 of the floor of the exact product,
or the 1×1 buffer when one of them is 0. -/
theorem resize_floor (w h maxW maxH : Int) (hw : 1 ≤ w) (hh : 1 ≤ h)
    (hW : 1 ≤ maxW) (hH : 1 ≤ maxH) (hW49 : maxW < 2 ^ 49) (hH49 : maxH < 2 ^ 49)
    (hbuf : 4 * maxW * maxH < 2 ^ 63) :
    ∃ tw th : Int, 0 ≤ tw ∧ tw ≤ maxW ∧ 0 ≤ th ∧ th ≤ maxH
      ∧ |tw - ⌊(w : ℚ) * specScale w h maxW maxH⌋| ≤ 1
      ∧ |th - ⌊(h : ℚ) * specScale w h maxW maxH⌋| ≤ 1
      ∧ resize w h maxW maxH = some (if tw = 0 ∨ th = 0 then (1, 1) else (tw, th)) := by
  have hw' : (0 : ℚ) < w := by exact_mod_cast (by omega : 0 < w)
  have hh' : (0 : ℚ) < h := by exact_mod_cast (by omega : 0 < h)
  obtain ⟨npw, nph⟩ := prod_near w h maxW maxH hw hh hW hH
  have hxle : (w : ℚ) * specScale w h maxW maxH ≤ maxW := by
    unfold specScale
    calc (w : ℚ) * min ((maxW : ℚ) / w) ((maxH : ℚ) / h)
        ≤ (w : ℚ) * ((maxW : ℚ) / w) := mul_le_mul_of_nonneg_left (min_le_left _ _) hw'.le
      _ = maxW := by field_simp
  have hyle : (h : ℚ) * specScale w h maxW maxH ≤ maxH := by
    unfold specScale
    calc (h : ℚ) * min ((maxW : ℚ) / w) ((maxH : ℚ) / h)
        ≤ (h : ℚ) * ((maxH : ℚ) / h) := mul_le_mul_of_nonneg_left (min_le_right _ _) hh'.le
      _ = maxH := by field_simp
  obtain ⟨cw1, cw2⟩ := near5_close _ _ maxW npw hxle hW49
  obtain ⟨ch1, ch2⟩ := near5_close _ _ maxH nph hyle hH49
  have pw0 := npw.2.1
  have ph0 := nph.2.1
  generalize hpw : fl (fl (w : ℚ) * flScale w h maxW maxH) = pw at *
  generalize hph : fl (fl (h : ℚ) * flScale w h maxW maxH) = ph at *
  generalize hX : (w : ℚ) * specScale w h maxW maxH = X at *
  generalize hY : (h : ℚ) * specScale w h maxW maxH = Y at *
  have tw0 : 0 ≤ ⌊pw⌋ := Int.floor_nonneg.mpr pw0.le
  have th0 : 0 ≤ ⌊ph⌋ := Int.floor_nonneg.mpr ph0.le
  have twM : ⌊pw⌋ ≤ maxW := by
    have : ⌊pw⌋ < maxW + 1 := by
      rw [Int.floor_lt]; push_cast; linarith
    omega
  have thM : ⌊ph⌋ ≤ maxH := by
    have : ⌊ph⌋ < maxH + 1 := by
      rw [Int.floor_lt]; push_cast; linarith
    omega
  have dw : |⌊pw⌋ - ⌊X⌋| ≤ 1 := by
    have a1 : ⌊pw⌋ < ⌊X⌋ + 2 := by
      rw [Int.floor_lt]; push_cast
      have := Int.lt_floor_add_one X
      linarith
    have a2 : ⌊X⌋ < ⌊pw⌋ + 2 := by
      rw [Int.floor_lt]; push_cast
      have := Int.lt_floor_add_one pw
      linarith
    rw [abs_le]; constructor <;> omega
  have dh : |⌊ph⌋ - ⌊Y⌋| ≤ 1 := by
    have a1 : ⌊ph⌋ < ⌊Y⌋ + 2 := by
      rw [Int.floor_lt]; push_cast
      have := Int.lt_floor_add_one Y
      linarith
    have a2 : ⌊Y⌋ < ⌊ph⌋ + 2 := by
      rw [Int.floor_lt]; push_cast
      have := Int.lt_floor_add_one ph
      linarith
    rw [abs_le]; constructor <;> omega
  refine ⟨⌊pw⌋, ⌊ph⌋, tw0, twM, th0, thM, dw, dh, ?_⟩
  have flw : fl (w : ℚ) ≠ 0 := (fl_near _ hw').2.1.ne'
  have flh : fl (h : ℚ) ≠ 0 := (fl_near _ hh').2.1.ne'
  rw [resize_unfold w h maxW maxH flw flh, hpw, hph,
    toInt_fin pw pw0.le (by omega), toInt_fin ph ph0.le (by omega)]
  simp only
  split_ifs with hz
  · exact NewRGBA_pos 1 1 (by norm_num) (by norm_num) (by norm_num)
  · rw [not_or] at hz
    apply NewRGBA_pos _ _ tw0 (by omega)
    have : ⌊pw⌋ * ⌊ph⌋ ≤ maxW * maxH := mul_le_mul twM thM th0 (by omega)
    nlinarith

/-- The embedding at inputs where the rounding of `float64` decides the result:
`1 * fl(15/11) * 11` rounds below 15, `1920 * fl(984/1920)` rounds below 984,
`49 * fl(640/31360)` rounds below 1; a source of width 0 gives the 1×1 buffer,
and a 0×0 source gives no buffer (`0 * Inf` is `NaN`). -/
theorem resize_examples :
    resize 1 11 2 15 = some (1, 14)
    ∧ resize 1920 1080 984 560 = some (983, 553)
    ∧ resize 31360 49 640 192 = some (1, 1)
    ∧ resize 1920 1080 640 192 = some (341, 192)
    ∧ resize 0 5 10 10 = some (1, 1)
    ∧ resize 0 0 10 10 = none := by
  refine ⟨by decide!, by decide!, by decide!, by decide!, by decide!, by decide!⟩

/-- C6 fails on the code: for a `(2^53+4)×1` source in the `(2^53+3)×1` box,
`float64(maxW)` rounds to `2^53+4` and the returned buffer is one pixel wider
than the box. -/
theorem resize_fits_box_counterexample :
    resize (2 ^ 53 + 4) 1 (2 ^ 53 + 3) 1 = some (2 ^ 53 + 4, 1)
    ∧ ¬ ((2 : Int) ^ 53 + 4 ≤ 2 ^ 53 + 3) := by
  refine ⟨by decide!, by decide⟩

/-- C6 amended: for source dimensions at least 1 and boxes with
`1 ≤ maxW, maxH < 2^49` and `4 * maxW * maxH < 2^63`, `resize`, computing in
`float64` as the code does, returns a buffer whose dimensions satisfy
`1 ≤ nw ≤ maxW` and `1 ≤ nh ≤ maxH`. -/
theorem resize_fits_box (w h maxW maxH : Int) (hw : 1 ≤ w) (hh : 1 ≤ h)
    (hW : 1 ≤ maxW) (hH : 1 ≤ maxH) (hW49 : maxW < 2 ^ 49) (hH49 : maxH < 2 ^ 49)
    (hbuf : 4 * maxW * maxH < 2 ^ 63) :
    ∃ nw nh : Int, resize w h maxW maxH = some (nw, nh)
      ∧ 1 ≤ nw ∧ nw ≤ maxW ∧ 1 ≤ nh ∧ nh ≤ maxH := by
  obtain ⟨tw, th, a0, a1, b0, b1, -, -, hr⟩ :=
    resize_floor w h maxW maxH hw hh hW hH hW49 hH49 hbuf
  by_cases hz : tw = 0 ∨ th = 0
  · rw [if_pos hz] at hr
    exact ⟨1, 1, hr, le_refl _, hW, le_refl _, hH⟩
  · rw [if_neg hz] at hr
    rw [not_or] at hz
    exact ⟨tw, th, hr, by omega, a1, by omega, b1⟩

/-- A 1920×1080 source in the 984×560 box of a 123×70 terminal: the buffer is
983×553, inside the box. -/
theorem resize_fits_box_witness :
    resize 1920 1080 984 560 = some (983, 553) ∧
    ∃ nw nh : Int, resize 1920 1080 984 560 = some (nw, nh)
      ∧ 1 ≤ nw ∧ nw ≤ 984 ∧ 1 ≤ nh ∧ nh ≤ 560 :=
  ⟨by decide!, resize_fits_box 1920 1080 984 560 (by decide) (by decide) (by decide)
    (by decide) (by decide) (by decide) (by decide)⟩

/-- C7 fails on the code: a 100×1 source in a 10×10 box gives 1×1 where the
formula gives 10×1, and a 1920×1080 source in a 984×560 box gives 983×553 where
the formula gives 984×553. -/
theorem resize_formula_counterexample :
    (resize 100 1 10 10 = some (1, 1) ∧ specDims 100 1 10 10 = (10, 1))
    ∧ (resize 1920 1080 984 560 = some (983, 553)
        ∧ specDims 1920 1080 984 560 = (984, 553)) := by
  refine ⟨⟨by decide!, by decide!⟩, by decide!, by decide!⟩

/-- C7 amended: for source dimensions at least 1 and boxes with
`1 ≤ maxW, maxH < 2^49` and `4 * maxW * maxH < 2^63`, with `r = min(maxW/w,
maxH/h)` in exact rational arithmetic, there are `tw` and `th`, non-negative and
within 1 of `floor(w*r)` and `floor(h*r)`, such that `resize` returns the
`tw × th` buffer when both are non-zero and the 1×1 buffer otherwise. -/
theorem resize_dims_formula (w h maxW maxH : Int) (hw : 1 ≤ w) (hh : 1 ≤ h)
    (hW : 1 ≤ maxW) (hH : 1 ≤ maxH) (hW49 : maxW < 2 ^ 49) (hH49 : maxH < 2 ^ 49)
    (hbuf : 4 * maxW * maxH < 2 ^ 63) :
    ∃ tw th : Int, 0 ≤ tw ∧ 0 ≤ th
      ∧ |tw - ⌊(w : ℚ) * specScale w h maxW maxH⌋| ≤ 1
      ∧ |th - ⌊(h : ℚ) * specScale w h maxW maxH⌋| ≤ 1
      ∧ resize w h maxW maxH = some (if tw = 0 ∨ th = 0 then (1, 1) else (tw, th)) := by
  obtain ⟨tw, th, a0, -, b0, -, dw, dh, hr⟩ :=
    resize_floor w h maxW maxH hw hh hW hH hW49 hH49 hbuf
  exact ⟨tw, th, a0, b0, dw, dh, hr⟩

/-- The amended formula at a 1×11 source in a 2×15 box, where the code returns
1×14 and the exact floors are 1 and 15. -/
theorem resize_dims_formula_witness :
    (resize 1 11 2 15 = some (1, 14) ∧ specDims 1 11 2 15 = (1, 15)) ∧
    ∃ tw th : Int, 0 ≤ tw ∧ 0 ≤ th
      ∧ |tw - ⌊((1 : Int) : ℚ) * specScale 1 11 2 15⌋| ≤ 1
      ∧ |th - ⌊((11 : Int) : ℚ) * specScale 1 11 2 15⌋| ≤ 1
      ∧ resize 1 11 2 15 = some (if tw = 0 ∨ th = 0 then (1, 1) else (tw, th)) :=
  ⟨⟨by decide!, by decide!⟩,
   resize_dims_formula 1 11 2 15 (by decide) (by decide) (by decide) (by decide)
    (by decide) (by decide) (by decide)⟩

/-! ## Cache file name -/

theorem digitVal_digitChar (d : Nat) (hd : d < 16) : digitVal (Nat.digitChar d) = d := by
  interval_cases d <;> rfl

theorem digitChar_ne_sep (d : Nat) (hd : d < 16) :
    Nat.digitChar d ≠ '-' ∧ Nat.digitChar d ≠ 'x' := by
  interval_cases d <;> decide

theorem toDigitsCore_eq (b : Nat) (hb : 2 ≤ b) :
    ∀ (fuel n : Nat) (ds : List Char), n < fuel → 0 < n →
      Nat.toDigitsCore b fuel n ds = (Nat.digits b n).reverse.map Nat.digitChar ++ ds := by
  intro fuel
  induction fuel with
  | zero => intro n ds h; omega
  | succ fuel ih =>
    intro n ds hlt hpos
    rw [Nat.digits_def' (by omega) hpos]
    unfold Nat.toDigitsCore
    by_cases hz : n / b = 0
    · simp [hz]
    · have hdiv : n / b < n := Nat.div_lt_self hpos (by omega)
      simp only [hz, if_false]
      rw [ih (n / b) _ (by omega) (Nat.pos_of_ne_zero hz)]
      simp

theorem toDigits_eq (b : Nat) (hb : 2 ≤ b) (n : Nat) :
    Nat.toDigits b n =
      if n = 0 then ['0'] else (Nat.digits b n).reverse.map Nat.digitChar := by
  by_cases hn : n = 0
  · subst hn
    simp [Nat.toDigits, Nat.toDigitsCore]
    rfl
  · rw [if_neg hn]
    unfold Nat.toDigits
    rw [toDigitsCore_eq b hb (n + 1) n [] (by omega) (Nat.pos_of_ne_zero hn)]
    simp

theorem cacheName_data (m w h : Int) :
    (cacheName m w h).data =
      'w' :: 'p' :: '-' :: (fmtInteger 16 m ++ '-' :: (fmtInteger 10 w ++ 'x' ::
        (fmtInteger 10 h ++ ['.', 'e', 's', 'q']))) := by
  simp [cacheName, String.data_append]

theorem readDigits_toDigits (b : Nat) (hb : 2 ≤ b) (hb16 : b ≤ 16) (n : Nat) :
    readDigits b (Nat.toDigits b n) = n := by
  rw [toDigits_eq b hb n]
  by_cases hn : n = 0
  · subst hn
    simp [readDigits]
    rfl
  · rw [if_neg hn]
    unfold readDigits
    have hmap : ((Nat.digits b n).reverse.map Nat.digitChar).map digitVal
        = (Nat.digits b n).reverse := by
      rw [List.map_map]
      conv_rhs => rw [← List.map_id (Nat.digits b n).reverse]
      apply List.map_congr_left
      intro d hd
      have : d < b := Nat.digits_lt_base (by omega) (List.mem_reverse.mp hd)
      simp [digitVal_digitChar d (by omega)]
    rw [hmap, List.reverse_reverse, Nat.ofDigits_digits]

theorem toDigits_inj (b : Nat) (hb : 2 ≤ b) (hb16 : b ≤ 16) (n n' : Nat)
    (h : Nat.toDigits b n = Nat.toDigits b n') : n = n' := by
  have := congrArg (readDigits b) h
  rwa [readDigits_toDigits b hb hb16, readDigits_toDigits b hb hb16] at this

theorem toDigits_ne_nil (b : Nat) (hb : 2 ≤ b) (n : Nat) : Nat.toDigits b n ≠ [] := by
  rw [toDigits_eq b hb n]
  by_cases hn : n = 0
  · simp [hn]
  · rw [if_neg hn]
    simp [Nat.digits_ne_nil_iff_ne_zero, hn]

theorem toDigits_no_sep (b : Nat) (hb : 2 ≤ b) (hb16 : b ≤ 16) (n : Nat) :
    ∀ c ∈ Nat.toDigits b n, c ≠ '-' ∧ c ≠ 'x' := by
  rw [toDigits_eq b hb n]
  by_cases hn : n = 0
  · rw [if_pos hn]
    intro c hc
    rw [List.mem_singleton] at hc
    subst hc
    decide
  · rw [if_neg hn]
    intro c hc
    obtain ⟨d, hd, rfl⟩ := List.mem_map.mp hc
    have : d < b := Nat.digits_lt_base (by omega) (List.mem_reverse.mp hd)
    exact digitChar_ne_sep d (by omega)

theorem append_sep_cancel (sep : Char) :
    ∀ (a a' r r' : List Char), sep ∉ a → sep ∉ a' →
      a ++ sep :: r = a' ++ sep :: r' → a = a' ∧ r = r' := by
  intro a
  induction a with
  | nil =>
    intro a' r r' _ ha' h
    cases a' with
    | nil => exact ⟨rfl, by simpa using h⟩
    | cons c t =>
      simp only [List.nil_append, List.cons_append, List.cons.injEq] at h
      exact absurd (by rw [h.1]; exact List.mem_cons_self _ _) ha'
  | cons x s ih =>
    intro a' r r' ha ha' h
    cases a' with
    | nil =>
      simp only [List.nil_append, List.cons_append, List.cons.injEq] at h
      exact absurd (by rw [← h.1]; exact List.mem_cons_self _ _) ha
    | cons c t =>
      simp only [List.cons_append, List.cons.injEq] at h
      obtain ⟨e1, e2⟩ := ih t r r' (fun hm => ha (List.mem_cons_of_mem _ hm))
        (fun hm => ha' (List.mem_cons_of_mem _ hm)) h.2
      exact ⟨by rw [h.1, e1], e2⟩

/-- A formatted integer followed by a separator `-` or `x` determines the
integer and what follows the separator. -/
theorem fmtInteger_sep_cancel (b : Nat) (hb : 2 ≤ b) (hb16 : b ≤ 16) (sep : Char)
    (hsep : sep = '-' ∨ sep = 'x') (v v' : Int) (r r' : List Char)
    (h : fmtInteger b v ++ sep :: r = fmtInteger b v' ++ sep :: r') : v = v' ∧ r = r' := by
  have hno : ∀ n, sep ∉ Nat.toDigits b n := by
    intro n hm
    have := toDigits_no_sep b hb hb16 n sep hm
    rcases hsep with e | e <;> simp [e] at this
  have hfirst : ∀ n (t u : List Char), Nat.toDigits b n ++ t ≠ '-' :: u := by
    intro n t u he
    have hne := toDigits_ne_nil b hb n
    cases hd : Nat.toDigits b n with
    | nil => exact hne hd
    | cons c s =>
      rw [hd] at he
      simp only [List.cons_append, List.cons.injEq] at he
      have := (toDigits_no_sep b hb hb16 n c (by rw [hd]; exact List.mem_cons_self _ _)).1
      exact this he.1
  unfold fmtInteger at h
  by_cases hv : v < 0 <;> by_cases hv' : v' < 0
  · rw [if_pos hv, if_pos hv'] at h
    simp only [List.cons_append, List.cons.injEq, true_and] at h
    obtain ⟨e1, e2⟩ := append_sep_cancel sep _ _ r r' (hno _) (hno _) h
    have := toDigits_inj b hb hb16 _ _ e1
    exact ⟨by omega, e2⟩
  · rw [if_pos hv, if_neg hv'] at h
    exact absurd h.symm (hfirst _ _ _)
  · rw [if_neg hv, if_pos hv'] at h
    exact absurd h (hfirst _ _ _)
  · rw [if_neg hv, if_neg hv'] at h
    obtain ⟨e1, e2⟩ := append_sep_cancel sep _ _ r r' (hno _) (hno _) h
    have := toDigits_inj b hb hb16 _ _ e1
    exact ⟨by omega, e2⟩

/-- C10: the cache file names built from `(mtime, w, h)` and `(mtime', w', h')`,
any integers, are equal if and only if `mtime = mtime'`, `w = w'` and `h = h'`. -/
theorem cacheName_eq_iff (mtime w h mtime' w' h' : Int) :
    cacheName mtime w h = cacheName mtime' w' h' ↔ mtime = mtime' ∧ w = w' ∧ h = h' := by
  constructor
  · intro he
    have hd := congrArg String.data he
    rw [cacheName_data, cacheName_data] at hd
    simp only [List.cons.injEq, true_and] at hd
    obtain ⟨e1, hd⟩ := fmtInteger_sep_cancel 16 (by decide) (by decide) '-' (Or.inl rfl) _ _ _ _ hd
    obtain ⟨e2, hd⟩ := fmtInteger_sep_cancel 10 (by decide) (by decide) 'x' (Or.inr rfl) _ _ _ _ hd
    have e3 : h = h' := by
      have hd' : fmtInteger 10 h ++ '.' :: ['e', 's', 'q'] = fmtInteger 10 h' ++ '.' :: ['e', 's', 'q'] := hd
      have hc := List.append_cancel_right hd'
      exact (fmtInteger_sep_cancel 10 (by decide) (by decide) '-' (Or.inl rfl) h h' [] []
        (by rw [hc])).1
    exact ⟨e1, e2, e3⟩
  · rintro ⟨rfl, rfl, rfl⟩
    rfl

/-- Two renderings of the cache file name: a positive mtime, and negative
values on every position. -/
theorem cacheName_examples :
    cacheName 1700000000000000000 640 192 = "wp-17979cfe362a0000-640x192.esq"
    ∧ cacheName (-255) (-8) 0 = "wp--ff--8x0.esq" := by
  decide

/-- The function `filepath.Base` on three paths. -/
theorem Base_examples :
    Base "/tmp/x/a.jpg" = "a.jpg" ∧ Base "a/b/" = "b" ∧ Base "//" = "/" := by
  decide

end Wallpeek
